import Mathlib

/-!
Verification of the cogent3 fragment: the bounded parallel-map utility
(`cogent3/util/parallel.py`) and the composable-app I/O subsystem
(serialization stages, loaders, writers, data stores).

The parallel utilities are embedded directly from `parallel.py`.  The process
pool executor (`concurrent.futures`) is an external collaborator; it is
modelled operationally from its documented contract: inputs are cut into
chunks, workers complete chunks in an arbitrary order, and results are
reassembled in chunk-index order.  The app I/O subsystem's implementation is
not part of the sources here (only its test suite is), so those definitions
are modelled from the specification, as marked in their doc comments.
-/

namespace Cogent3

/-- From `set_default_chunksize` in `parallel.py`:
`chunksize, remainder = divmod(len(s), max_workers * 4)`, then
`if remainder: chunksize += 1`. -/
def set_default_chunksize (slen max_workers : Nat) : Nat :=
  if slen % (max_workers * 4) ≠ 0 then slen / (max_workers * 4) + 1
  else slen / (max_workers * 4)

/-- Worker-count selection of `imap` in `parallel.py`, including every check that can
raise before a pool is created: the `if_serial` validity assertion, the MPI
availability check, the serial-execution RuntimeError, the falsy-default
replacement of `max_workers` (`None` or `0` become "all cores/universe minus one"),
and, in the non-MPI path, `assert max_workers < multiprocessing.cpu_count()`.
`none` models an exception escaping; `some w` means a pool of `w` workers is
requested. -/
def imap_pool_workers (max_workers : Option Nat) (use_mpi : Bool) (if_serial : String)
    (cpu_count universe_size : Nat) (using_mpi : Bool) : Option Nat :=
  if ¬ (if_serial = "ignore" ∨ if_serial = "raise" ∨ if_serial = "warn") then none
  else if use_mpi then
    if ¬ using_mpi then none
    else if universe_size = 1 ∧ if_serial = "raise" then none
    else some (match max_workers with
      | none => universe_size - 1
      | some 0 => universe_size - 1
      | some (k + 1) => k + 1)
  else
    let mw := match max_workers with
      | none => cpu_count - 1
      | some 0 => cpu_count - 1
      | some (k + 1) => k + 1
    if mw < cpu_count then some mw else none

/-- The non-MPI branch of `is_master_process` in `parallel.py`: the current process is
reported as a worker exactly when the process name with its final two characters
removed (`process_name[:-2]`) equals `"ForkProcess"` or `"SpawnProcess"`. -/
def is_master_process (process_name : String) : Bool :=
  if process_name.take (process_name.length - 2) = "ForkProcess" ∨
      process_name.take (process_name.length - 2) = "SpawnProcess" then false
  else true

/-- Resolution of the `chunksize` argument of `imap`: a falsy value (`None` or `0`)
is replaced by `set_default_chunksize(s, max_workers)`. -/
def effective_chunksize (chunksize : Option Nat) (slen max_workers : Nat) : Nat :=
  match chunksize with
  | none => set_default_chunksize slen max_workers
  | some 0 => set_default_chunksize slen max_workers
  | some (c + 1) => c + 1

/-- Cutting a list into consecutive chunks of size `k` (the executor's batching of
inputs); the first argument is fuel, always instantiated with the list length. -/
def chunksOfGo {α : Type} : Nat → Nat → List α → List (List α)
  | _, _, [] => []
  | 0, _, l => [l]
  | fuel + 1, k, a :: l => ((a :: l).take k) :: chunksOfGo fuel k ((a :: l).drop k)

/-- The chunking of an input list performed inside the executor pool `map`. -/
def chunksOf {α : Type} (k : Nat) (l : List α) : List (List α) := chunksOfGo l.length k l

/-- Operational model of the pool executor `map` used by `imap`: the input is cut
into chunks of size `chunksize`; `sched` is the order in which workers complete
chunks; each completion stores that chunk's results keyed by the chunk index; the
caller reads results back in chunk-index (i.e. submission) order, not completion
order. -/
def executorMap {α β : Type} (f : α → β) (s : List α) (chunksize : Nat)
    (sched : List Nat) : List β :=
  let chunks := chunksOf chunksize s
  let completed := sched.filterMap fun i => (chunks.get? i).map fun c => (i, c.map f)
  ((List.range chunks.length).filterMap fun i => completed.lookup i).flatten

/-- Model of `imap` (non-MPI path) from `parallel.py`: select the worker count
(with its assertion), resolve the chunk size, and run the executor map.  `none`
models an exception escaping before any result is yielded: a failed assertion,
a zero-worker pool, or a non-positive chunk size (both rejected by the pool
executor). -/
def imap {α β : Type} (f : α → β) (s : List α) (max_workers : Option Nat)
    (if_serial : String) (cpu_count : Nat) (chunksize : Option Nat)
    (sched : List Nat) : Option (List β) :=
  match imap_pool_workers max_workers false if_serial cpu_count 1 false with
  | none => none
  | some 0 => none
  | some (w + 1) =>
    let k := effective_chunksize chunksize s.length (w + 1)
    if k = 0 then none
    else some (executorMap f s k sched)

theorem chunksOfGo_flatten {α : Type} :
    ∀ (fuel k : Nat) (l : List α), 0 < k → l.length ≤ fuel →
      (chunksOfGo fuel k l).flatten = l := by
  intro fuel
  induction fuel with
  | zero =>
    intro k l hk hl
    cases l with
    | nil => rfl
    | cons a t => simp at hl
  | succ n ih =>
    intro k l hk hl
    cases l with
    | nil => rfl
    | cons a t =>
      simp only [chunksOfGo, List.flatten_cons]
      rw [ih k ((a :: t).drop k) hk]
      · exact List.take_append_drop k (a :: t)
      · have h1 : ((a :: t).drop k).length = t.length + 1 - k := by
          rw [List.length_drop]; rfl
        have h2 : t.length + 1 ≤ n + 1 := by
          simpa using hl
        omega

theorem chunksOf_flatten {α : Type} (k : Nat) (l : List α) (hk : 0 < k) :
    (chunksOf k l).flatten = l :=
  chunksOfGo_flatten l.length k l hk (Nat.le_refl _)

theorem filterMap_eq_map_of {α β : Type} (l : List α) (F : α → Option β) (G : α → β)
    (h : ∀ a ∈ l, F a = some (G a)) : l.filterMap F = l.map G := by
  induction l with
  | nil => rfl
  | cons a t ih =>
    simp only [List.filterMap_cons, h a (List.mem_cons_self a t), List.map_cons]
    rw [ih fun b hb => h b (List.mem_cons_of_mem a hb)]

theorem lookup_completed {α β : Type} (f : α → β) (chunks : List (List α)) :
    ∀ (sched : List Nat) (i : Nat) (ci : List α), i ∈ sched → chunks.get? i = some ci →
      (sched.filterMap fun j => (chunks.get? j).map fun c => (j, c.map f)).lookup i
        = some (ci.map f) := by
  intro sched
  induction sched with
  | nil => intro i ci hmem _; simp at hmem
  | cons j t ih =>
    intro i ci hmem hget
    by_cases hij : j = i
    · subst hij
      simp only [List.filterMap_cons, hget, Option.map_some']
      simp [List.lookup]
    · rcases List.mem_cons.mp hmem with h | h
      · exact absurd h.symm hij
      · simp only [List.filterMap_cons]
        cases hj : chunks.get? j with
        | none => exact ih i ci h hget
        | some cj =>
          simp only [Option.map_some']
          have hne : (i == j) = false := beq_eq_false_iff_ne.mpr fun h2 => hij h2.symm
          simp only [List.lookup, hne]
          exact ih i ci h hget

theorem map_range_getD {γ : Type} (l : List γ) (d : γ) :
    (List.range l.length).map (fun i => (l.get? i).getD d) = l := by
  induction l with
  | nil => rfl
  | cons a t ih =>
    simp only [List.length_cons, List.range_succ_eq_map, List.map_cons, List.map_map]
    have h1 : (((a :: t).get? 0).getD d) = a := rfl
    rw [h1, show ((fun i => ((a :: t).get? i).getD d) ∘ Nat.succ)
          = (fun i => (t.get? i).getD d) from rfl, ih]

theorem executorMap_eq_map {α β : Type} (f : α → β) (s : List α) (k : Nat)
    (sched : List Nat) (hk : 0 < k)
    (hsched : sched.Perm (List.range (chunksOf k s).length)) :
    executorMap f s k sched = s.map f := by
  unfold executorMap
  have hstep : (List.range (chunksOf k s).length).filterMap
      (fun i => ((chunksOf k s).map (List.map f)).get? i)
      = (List.range (chunksOf k s).length).map
        (fun i => ((((chunksOf k s).map (List.map f)).get? i).getD [])) := by
    apply filterMap_eq_map_of
    intro i hi
    have hlt : i < (chunksOf k s).length := by
      simpa using List.mem_range.mp hi
    have : ((chunksOf k s).map (List.map f)).get? i
        = some (((chunksOf k s).map (List.map f)).get ⟨i, by simpa using hlt⟩) :=
      List.get?_eq_get _
    rw [this]
    rfl
  have hlookup : ∀ i ∈ List.range (chunksOf k s).length,
      ((sched.filterMap fun j => ((chunksOf k s).get? j).map fun c => (j, c.map f)).lookup i)
        = ((chunksOf k s).map (List.map f)).get? i := by
    intro i hi
    have hlt : i < (chunksOf k s).length := List.mem_range.mp hi
    have hget : (chunksOf k s).get? i = some ((chunksOf k s).get ⟨i, hlt⟩) :=
      List.get?_eq_get _
    have hmem : i ∈ sched := (List.Perm.mem_iff hsched).mpr hi
    rw [lookup_completed f (chunksOf k s) sched i _ hmem hget]
    rw [List.get?_map, hget]
    rfl
  calc ((List.range (chunksOf k s).length).filterMap
          fun i => ((sched.filterMap fun j =>
            ((chunksOf k s).get? j).map fun c => (j, c.map f)).lookup i)).flatten
      = ((List.range (chunksOf k s).length).filterMap
          fun i => ((chunksOf k s).map (List.map f)).get? i).flatten := by
        congr 1
        apply List.filterMap_congr
        intro i hi
        exact hlookup i hi
    _ = ((List.range ((chunksOf k s).map (List.map f)).length).map
          fun i => ((((chunksOf k s).map (List.map f)).get? i).getD [])).flatten := by
        rw [List.length_map, hstep]
    _ = ((chunksOf k s).map (List.map f)).flatten := by
        rw [map_range_getD]
    _ = ((chunksOf k s).flatten).map f := (List.map_flatten f _).symm
    _ = s.map f := by rw [chunksOf_flatten k s hk]

theorem imap_eq_serial {α β : Type} (f : α → β) (s : List α) (mw : Option Nat)
    (ifs : String) (cpu : Nat) (cs : Option Nat) (sched : List Nat) (w : Nat)
    (hw : imap_pool_workers mw false ifs cpu 1 false = some w) (hw0 : 0 < w)
    (hk : 0 < effective_chunksize cs s.length w)
    (hsched : sched.Perm
      (List.range (chunksOf (effective_chunksize cs s.length w) s).length)) :
    imap f s mw ifs cpu cs sched = some (s.map f) := by
  unfold imap
  rw [hw]
  obtain ⟨w', rfl⟩ : ∃ w', w = w' + 1 := ⟨w - 1, by omega⟩
  simp only []
  rw [if_neg (by omega)]
  rw [executorMap_eq_map f s _ sched hk hsched]

theorem ceil_div_spec (n m : Nat) (hm : 0 < m) :
    (if n % m ≠ 0 then n / m + 1 else n / m) = (n + m - 1) / m ∧
    n ≤ (if n % m ≠ 0 then n / m + 1 else n / m) * m ∧
    ∀ j, n ≤ j * m → (if n % m ≠ 0 then n / m + 1 else n / m) ≤ j := by
  have hd := Nat.div_add_mod n m
  have hlt : n % m < m := Nat.mod_lt n hm
  by_cases hr : n % m = 0
  · rw [if_neg (by omega)]
    refine ⟨?_, ?_, ?_⟩
    · have e : n + m - 1 = m * (n / m) + (m - 1) := by omega
      have h3 : (m - 1) / m = 0 := Nat.div_eq_of_lt (by omega)
      rw [e, Nat.mul_add_div hm, h3]
      omega
    · have h2 : (n / m) * m = m * (n / m) := Nat.mul_comm _ _
      omega
    · intro j hj
      by_contra hc
      push_neg at hc
      have h3 : (j + 1) * m ≤ (n / m) * m := Nat.mul_le_mul_right m hc
      have h4 : (n / m) * m = m * (n / m) := Nat.mul_comm _ _
      have h5 : (j + 1) * m = j * m + m := by ring
      omega
  · rw [if_pos hr]
    refine ⟨?_, ?_, ?_⟩
    · have h2 : m * (n / m + 1) = m * (n / m) + m := by ring
      have e : n + m - 1 = m * (n / m + 1) + (n % m - 1) := by omega
      have h3 : (n % m - 1) / m = 0 := Nat.div_eq_of_lt (by omega)
      rw [e, Nat.mul_add_div hm, h3]
    · have h2 : (n / m + 1) * m = m * (n / m) + m := by ring
      omega
    · intro j hj
      by_contra hc
      push_neg at hc
      have h3 : j * m ≤ (n / m) * m := Nat.mul_le_mul_right m (by omega)
      have h4 : (n / m) * m = m * (n / m) := Nat.mul_comm _ _
      omega

/-- C1: for every function and finite input sequence, the bounded parallel map yields
exactly the element-wise image of the input, in input order, regardless of the order
`sched` in which workers complete their chunks — i.e. the parallel output equals serial
`List.map`, whenever the call succeeds (a valid pool of at least one worker and a
positive chunk size). -/
theorem imap_parallel_equals_serial {α β : Type} (f : α → β) (s : List α)
    (mw : Option Nat) (ifs : String) (cpu : Nat) (cs : Option Nat) (sched : List Nat)
    (w : Nat)
    (hw : imap_pool_workers mw false ifs cpu 1 false = some w) (hw0 : 0 < w)
    (hk : 0 < effective_chunksize cs s.length w)
    (hsched : sched.Perm
      (List.range (chunksOf (effective_chunksize cs s.length w) s).length)) :
    imap f s mw ifs cpu cs sched = some (s.map f) :=
  imap_eq_serial f s mw ifs cpu cs sched w hw hw0 hk hsched

/-- Witness for C1 at a concrete input: five inputs, two workers, chunk size one,
a scrambled completion order, output still in input order. -/
theorem imap_parallel_equals_serial_witness :
    imap (fun n : Nat => n * n) [1, 2, 3, 4, 5] (some 2) "raise" 4 none [4, 2, 0, 1, 3]
      = some ([1, 2, 3, 4, 5].map (fun n : Nat => n * n)) :=
  imap_parallel_equals_serial (fun n : Nat => n * n) [1, 2, 3, 4, 5] (some 2) "raise" 4
    none [4, 2, 0, 1, 3] 2 rfl (by decide) (by decide) (by decide)

/-- C2: a batch of N inputs produces exactly N output slots, one per input and in
input position, so an input whose mapped function produces a failure value still
occupies its own slot without disturbing the others. -/
theorem imap_one_slot_per_input {α ε β : Type} (f : α → Sum ε β) (s : List α)
    (mw : Option Nat) (ifs : String) (cpu : Nat) (cs : Option Nat) (sched : List Nat)
    (w : Nat)
    (hw : imap_pool_workers mw false ifs cpu 1 false = some w) (hw0 : 0 < w)
    (hk : 0 < effective_chunksize cs s.length w)
    (hsched : sched.Perm
      (List.range (chunksOf (effective_chunksize cs s.length w) s).length)) :
    ∃ out : List (Sum ε β), imap f s mw ifs cpu cs sched = some out ∧
      out.length = s.length ∧
      ∀ i (hi : i < s.length), out[i]? = some (f s[i]) := by
  refine ⟨s.map f, imap_eq_serial f s mw ifs cpu cs sched w hw hw0 hk hsched, by simp, ?_⟩
  intro i hi
  rw [List.getElem?_map, List.getElem?_eq_getElem hi, Option.map_some']

/-- Witness for C2 at a concrete input where one of three inputs maps to a failure
value: three slots come back, the failure in its own position. -/
theorem imap_one_slot_per_input_witness :
    ∃ out : List (Sum String Nat),
      imap (fun n : Nat => if n = 3 then Sum.inl "bad" else Sum.inr n) [1, 2, 3]
          (some 2) "raise" 4 none [2, 0, 1] = some out ∧ out.length = 3 := by
  obtain ⟨out, h1, h2, _⟩ := imap_one_slot_per_input
    (fun n : Nat => if n = 3 then Sum.inl "bad" else Sum.inr n) [1, 2, 3]
    (some 2) "raise" 4 none [2, 0, 1] 2 rfl (by decide) (by decide) (by decide)
  exact ⟨out, h1, by simpa using h2⟩

/-- C3: for every sequence length and positive worker count, the default chunk size is
exactly the ceiling of len/(workers*4) in integer arithmetic: it equals the standard
integer ceiling expression, covers all inputs, and is the least chunk count that does. -/
theorem set_default_chunksize_is_ceil (n mw : Nat) (h : 0 < mw) :
    set_default_chunksize n mw = (n + mw * 4 - 1) / (mw * 4) ∧
    n ≤ set_default_chunksize n mw * (mw * 4) ∧
    ∀ j, n ≤ j * (mw * 4) → set_default_chunksize n mw ≤ j := by
  have hm : 0 < mw * 4 := by positivity
  have hspec := ceil_div_spec n (mw * 4) hm
  simpa [set_default_chunksize] using hspec

/-- Witness for C3: ten inputs over two workers give a chunk size of two, the ceiling
of 10/8. -/
theorem set_default_chunksize_is_ceil_witness :
    0 < 2 ∧ set_default_chunksize 10 2 = 2 :=
  ⟨by decide, ((set_default_chunksize_is_ceil 10 2 (by decide)).1).trans (by norm_num)⟩

/-- C4: with a falsy `max_workers` (None or 0), the non-MPI path requests exactly
`cpu_count - 1` workers (and its assertion passes), and the MPI path requests exactly
`universe_size - 1` workers. -/
theorem imap_default_workers (cpu usize : Nat) (ifs : String)
    (hcpu : 0 < cpu) (hifs : ifs = "ignore" ∨ ifs = "raise" ∨ ifs = "warn")
    (huni : usize ≠ 1) :
    imap_pool_workers none false ifs cpu usize false = some (cpu - 1) ∧
    imap_pool_workers (some 0) false ifs cpu usize false = some (cpu - 1) ∧
    imap_pool_workers none true ifs cpu usize true = some (usize - 1) ∧
    imap_pool_workers (some 0) true ifs cpu usize true = some (usize - 1) := by
  have hlt : cpu - 1 < cpu := Nat.sub_lt hcpu (by omega)
  refine ⟨?_, ?_, ?_, ?_⟩
  · unfold imap_pool_workers
    rw [if_neg (not_not_intro hifs), if_neg Bool.false_ne_true]
    show (if cpu - 1 < cpu then some (cpu - 1) else none) = some (cpu - 1)
    rw [if_pos hlt]
  · unfold imap_pool_workers
    rw [if_neg (not_not_intro hifs), if_neg Bool.false_ne_true]
    show (if cpu - 1 < cpu then some (cpu - 1) else none) = some (cpu - 1)
    rw [if_pos hlt]
  · unfold imap_pool_workers
    rw [if_neg (not_not_intro hifs), if_pos rfl, if_neg (by simp),
      if_neg (by simp [huni])]
  · unfold imap_pool_workers
    rw [if_neg (not_not_intro hifs), if_pos rfl, if_neg (by simp),
      if_neg (by simp [huni])]

/-- Witness for C4: four cores give a three-worker pool; an MPI universe of three
gives a two-worker pool. -/
theorem imap_default_workers_witness :
    imap_pool_workers none false "raise" 4 3 false = some 3 ∧
    imap_pool_workers (some 0) false "raise" 4 3 false = some 3 ∧
    imap_pool_workers none true "raise" 4 3 true = some 2 ∧
    imap_pool_workers (some 0) true "raise" 4 3 true = some 2 := by
  simpa using imap_default_workers 4 3 "raise" (by decide) (Or.inr (Or.inl rfl))
    (by decide)

/-- C9: with an explicitly supplied positive `max_workers` k in the non-MPI path,
execution proceeds exactly when k is strictly below the core count; any k at or above
`cpu_count` fails the assertion before any input is processed. -/
theorem imap_explicit_worker_bound (k cpu usize : Nat) (ifs : String)
    (hifs : ifs = "ignore" ∨ ifs = "raise" ∨ ifs = "warn") (hk : 0 < k) :
    (cpu ≤ k → imap_pool_workers (some k) false ifs cpu usize false = none) ∧
    (k < cpu → imap_pool_workers (some k) false ifs cpu usize false = some k) := by
  obtain ⟨k', rfl⟩ : ∃ k', k = k' + 1 := ⟨k - 1, by omega⟩
  unfold imap_pool_workers
  rw [if_neg (not_not_intro hifs)]
  constructor
  · intro h
    simp only [Bool.false_eq_true, if_false]
    rw [if_neg (by omega)]
  · intro h
    simp only [Bool.false_eq_true, if_false]
    rw [if_pos (by omega)]

/-- Witness for C9: on four cores, eight workers (and even exactly four) fail the
assertion, while two workers proceed. -/
theorem imap_explicit_worker_bound_witness :
    imap_pool_workers (some 8) false "raise" 4 1 false = none ∧
    imap_pool_workers (some 4) false "raise" 4 1 false = none ∧
    imap_pool_workers (some 2) false "raise" 4 1 false = some 2 :=
  ⟨(imap_explicit_worker_bound 8 4 1 "raise" (Or.inr (Or.inl rfl)) (by decide)).1
      (by decide),
    (imap_explicit_worker_bound 4 4 1 "raise" (Or.inr (Or.inl rfl)) (by decide)).1
      (by decide),
    (imap_explicit_worker_bound 2 4 1 "raise" (Or.inr (Or.inl rfl)) (by decide)).2
      (by decide)⟩

/-- C10: in the non-MPI branch, `is_master_process` reports non-master exactly when the
process name minus its final two characters equals ForkProcess or SpawnProcess; hence
single-digit worker indices are detected as workers, but indices of two or more digits
are misreported as master. -/
theorem is_master_process_suffix_trim :
    (∀ name : String, is_master_process name = false ↔
      (name.take (name.length - 2) = "ForkProcess" ∨
        name.take (name.length - 2) = "SpawnProcess")) ∧
    is_master_process "ForkProcess-3" = false ∧
    is_master_process "SpawnProcess-5" = false ∧
    is_master_process "MainProcess" = true ∧
    is_master_process "ForkProcess-10" = true ∧
    is_master_process "SpawnProcess-12" = true := by
  refine ⟨?_, by decide, by decide, by decide, by decide, by decide⟩
  intro name
  unfold is_master_process
  split
  · next hcond => simpa using hcond
  · next hcond => simpa using hcond

/-!
The app I/O subsystem.  Its implementation is not among the sources here (only its
test suite is), so the definitions below are modelled from the specification's data
model and component design (spec sections 3, 4.2 to 4.5, 6 and 7), as their doc
comments record.
-/

mutual
/-- Modelled from the spec: a JSON-safe primitive structure, the intermediate form of
the serialization stages (section 4.3: object to primitive to bytes). -/
inductive Prim where
  | pint (n : Int)
  | pstr (s : String)
  | plist (xs : PrimList)
  | pdict (kvs : PrimKVs)

/-- Modelled from the spec: a list of primitive values. -/
inductive PrimList where
  | nil
  | cons (p : Prim) (ps : PrimList)

/-- Modelled from the spec: the key/value fields of a rich-dict primitive. -/
inductive PrimKVs where
  | nil
  | cons (key : String) (p : Prim) (kvs : PrimKVs)
end

mutual
/-- Number of elements of a primitive list. -/
def lcount : PrimList → Nat
  | .nil => 0
  | .cons _ ps => lcount ps + 1

/-- Number of fields of a primitive dict. -/
def kcount : PrimKVs → Nat
  | .nil => 0
  | .cons _ _ kvs => kcount kvs + 1
end

mutual
/-- Structural size of a primitive value, used as decoding fuel. -/
def psize : Prim → Nat
  | .pint _ => 1
  | .pstr _ => 1
  | .plist xs => 1 + lsize xs
  | .pdict kvs => 1 + ksize kvs

/-- Structural size of a primitive list. -/
def lsize : PrimList → Nat
  | .nil => 0
  | .cons p ps => 1 + psize p + lsize ps

/-- Structural size of a primitive dict. -/
def ksize : PrimKVs → Nat
  | .nil => 0
  | .cons _ p kvs => 1 + psize p + ksize kvs
end

/-- Token encoding of an integer: sign flag then magnitude. -/
def encInt (n : Int) : List Nat := [(if n < 0 then 1 else 0), n.natAbs]

/-- Token encoding of a string: length then character codes. -/
def encStr (s : String) : List Nat := s.toList.length :: s.toList.map Char.toNat

mutual
/-- Modelled from the spec: the pickle serialization of a primitive value into a flat
blob of tokens (section 4.3, primitive to serialized byte blob). -/
def encPrim : Prim → List Nat
  | .pint n => 0 :: encInt n
  | .pstr s => 1 :: encStr s
  | .plist xs => 2 :: lcount xs :: encPrims xs
  | .pdict kvs => 3 :: kcount kvs :: encPairs kvs

/-- Serialization of the elements of a primitive list, concatenated. -/
def encPrims : PrimList → List Nat
  | .nil => []
  | .cons p ps => encPrim p ++ encPrims ps

/-- Serialization of the fields of a primitive dict, concatenated. -/
def encPairs : PrimKVs → List Nat
  | .nil => []
  | .cons key p kvs => encStr key ++ encPrim p ++ encPairs kvs
end

/-- Decoding of a string from the front of a blob: length, then that many character
codes. -/
def decStr (b : List Nat) : Option (String × List Nat) :=
  match b with
  | [] => none
  | len :: rest =>
    if len ≤ rest.length then
      some (String.mk ((rest.take len).map Char.ofNat), rest.drop len)
    else none

mutual
/-- Modelled from the spec: the unpickling parser, reading one primitive value from
the front of a blob.  The first argument is fuel; any amount at least the structural
size of the encoded value suffices. -/
def decPrim : Nat → List Nat → Option (Prim × List Nat)
  | 0, _ => none
  | _ + 1, 0 :: sign :: mag :: rest =>
    some (.pint (if sign = 1 then -(mag : Int) else (mag : Int)), rest)
  | _ + 1, 1 :: rest => (decStr rest).map fun sr => (.pstr sr.1, sr.2)
  | fuel + 1, 2 :: k :: rest => (decPrims fuel k rest).map fun xr => (.plist xr.1, xr.2)
  | fuel + 1, 3 :: k :: rest => (decPairs fuel k rest).map fun kr => (.pdict kr.1, kr.2)
  | _ + 1, _ => none

/-- Parsing of a fixed number of primitive list elements. -/
def decPrims : Nat → Nat → List Nat → Option (PrimList × List Nat)
  | _, 0, rest => some (.nil, rest)
  | 0, _ + 1, _ => none
  | fuel + 1, k + 1, rest =>
    match decPrim fuel rest with
    | none => none
    | some (p, r) =>
      match decPrims fuel k r with
      | none => none
      | some (ps, r2) => some (.cons p ps, r2)

/-- Parsing of a fixed number of primitive dict fields. -/
def decPairs : Nat → Nat → List Nat → Option (PrimKVs × List Nat)
  | _, 0, rest => some (.nil, rest)
  | 0, _ + 1, _ => none
  | fuel + 1, k + 1, rest =>
    match decStr rest with
    | none => none
    | some (key, r) =>
      match decPrim fuel r with
      | none => none
      | some (p, r2) =>
        match decPairs fuel k r2 with
        | none => none
        | some (kvs, r3) => some (.cons key p kvs, r3)
end

theorem char_ofNat_toNat (c : Char) : Char.ofNat c.toNat = c := by
  have hv : c.toNat.isValidChar := c.valid
  simp only [Char.ofNat, hv, dif_pos]
  apply Char.ext
  simp only [Char.ofNatAux, Char.toNat]
  apply UInt32.ext
  rfl

theorem decStr_enc (s : String) (rest : List Nat) :
    decStr (encStr s ++ rest) = some (s, rest) := by
  unfold decStr encStr
  simp only [List.cons_append]
  rw [if_pos (by rw [List.length_append, List.length_map]; omega)]
  have h1 : (s.toList.map Char.toNat ++ rest).take (s.toList.length)
      = s.toList.map Char.toNat := by
    conv_lhs => rw [← List.length_map s.toList Char.toNat]
    exact List.take_left _ _
  have h2 : (s.toList.map Char.toNat ++ rest).drop (s.toList.length) = rest := by
    conv_lhs => rw [← List.length_map s.toList Char.toNat]
    exact List.drop_left _ _
  rw [h1, h2, List.map_map]
  have h3 : s.toList.map (Char.ofNat ∘ Char.toNat) = s.toList := by
    have hcongr : ∀ c ∈ s.toList, (Char.ofNat ∘ Char.toNat) c = id c :=
      fun c _ => char_ofNat_toNat c
    rw [List.map_congr_left hcongr, List.map_id]
  rw [h3]
  cases s
  rfl

theorem dec_enc (fuel : Nat) :
    (∀ (p : Prim) (rest : List Nat), psize p ≤ fuel →
      decPrim fuel (encPrim p ++ rest) = some (p, rest)) ∧
    (∀ (ps : PrimList) (rest : List Nat), lsize ps ≤ fuel →
      decPrims fuel (lcount ps) (encPrims ps ++ rest) = some (ps, rest)) ∧
    (∀ (kvs : PrimKVs) (rest : List Nat), ksize kvs ≤ fuel →
      decPairs fuel (kcount kvs) (encPairs kvs ++ rest) = some (kvs, rest)) := by
  induction fuel with
  | zero =>
    refine ⟨?_, ?_, ?_⟩
    · intro p rest hp
      exfalso
      cases p <;> simp [psize] at hp
    · intro ps rest hl
      cases ps with
      | nil => rfl
      | cons p t => exfalso; simp [lsize] at hl
    · intro kvs rest hk
      cases kvs with
      | nil => rfl
      | cons key p t => exfalso; simp [ksize] at hk
  | succ n ih =>
    obtain ⟨ihp, ihl, ihk⟩ := ih
    refine ⟨?_, ?_, ?_⟩
    · intro p rest hp
      cases p with
      | pint m =>
        show decPrim (n + 1) ((0 :: encInt m) ++ rest) = _
        simp only [encInt, List.cons_append, List.nil_append, decPrim]
        have hval : (if (if m < 0 then (1 : Nat) else 0) = 1
            then -(m.natAbs : Int) else (m.natAbs : Int)) = m := by
          by_cases hm : m < 0
          · rw [if_pos hm, if_pos rfl, Int.ofNat_natAbs_of_nonpos (by omega), neg_neg]
          · rw [if_neg hm, if_neg (by decide), Int.natAbs_of_nonneg (by omega)]
        rw [hval]
      | pstr s =>
        show decPrim (n + 1) ((1 :: encStr s) ++ rest) = _
        simp only [List.cons_append, decPrim]
        rw [decStr_enc]
        rfl
      | plist xs =>
        have hxs : lsize xs ≤ n := by simp [psize] at hp; omega
        show decPrim (n + 1) ((2 :: lcount xs :: encPrims xs) ++ rest) = _
        simp only [List.cons_append, decPrim]
        rw [ihl xs rest hxs]
        rfl
      | pdict kvs =>
        have hkvs : ksize kvs ≤ n := by simp [psize] at hp; omega
        show decPrim (n + 1) ((3 :: kcount kvs :: encPairs kvs) ++ rest) = _
        simp only [List.cons_append, decPrim]
        rw [ihk kvs rest hkvs]
        rfl
    · intro ps rest hl
      cases ps with
      | nil => rfl
      | cons p t =>
        have hps : psize p ≤ n := by simp [lsize] at hl; omega
        have hlt : lsize t ≤ n := by simp [lsize] at hl; omega
        have h1 := ihp p (encPrims t ++ rest) hps
        have h2 := ihl t rest hlt
        show decPrims (n + 1) (lcount t + 1) ((encPrim p ++ encPrims t) ++ rest) = _
        rw [List.append_assoc]
        simp only [decPrims, h1, h2]
    · intro kvs rest hk
      cases kvs with
      | nil => rfl
      | cons key p t =>
        have hps : psize p ≤ n := by simp [ksize] at hk; omega
        have hkt : ksize t ≤ n := by simp [ksize] at hk; omega
        have h0 := decStr_enc key (encPrim p ++ (encPairs t ++ rest))
        have h1 := ihp p (encPairs t ++ rest) hps
        have h2 := ihk t rest hkt
        simp only [kcount, encPairs, List.append_assoc]
        simp only [decPairs, h0, h1, h2]

theorem one_le_psize (p : Prim) : 1 ≤ psize p := by
  cases p <;> simp [psize]

theorem enc_length_ge (bound : Nat) :
    (∀ p : Prim, psize p ≤ bound → psize p + 1 ≤ (encPrim p).length) ∧
    (∀ ps : PrimList, lsize ps ≤ bound → lsize ps ≤ (encPrims ps).length) ∧
    (∀ kvs : PrimKVs, ksize kvs ≤ bound → ksize kvs ≤ (encPairs kvs).length) := by
  induction bound with
  | zero =>
    refine ⟨?_, ?_, ?_⟩
    · intro p hp
      exact absurd hp (by have := one_le_psize p; omega)
    · intro ps hl
      cases ps with
      | nil => simp [lsize]
      | cons p t => exact absurd hl (by simp [lsize])
    · intro kvs hk
      cases kvs with
      | nil => simp [ksize]
      | cons key p t => exact absurd hk (by simp [ksize])
  | succ n ih =>
    obtain ⟨ihp, ihl, ihk⟩ := ih
    refine ⟨?_, ?_, ?_⟩
    · intro p hp
      cases p with
      | pint m => simp [psize, encPrim, encInt]
      | pstr s =>
        simp [psize, encPrim, encStr]
      | plist xs =>
        have hxs : lsize xs ≤ n := by simp [psize] at hp; omega
        have h1 := ihl xs hxs
        simp [psize, encPrim]
        omega
      | pdict kvs =>
        have hkvs : ksize kvs ≤ n := by simp [psize] at hp; omega
        have h1 := ihk kvs hkvs
        simp [psize, encPrim]
        omega
    · intro ps hl
      cases ps with
      | nil => simp [lsize]
      | cons p t =>
        have hps : psize p ≤ n := by simp [lsize] at hl; omega
        have hlt : lsize t ≤ n := by simp [lsize] at hl; omega
        have h1 := ihp p hps
        have h2 := ihl t hlt
        simp [lsize, encPrims, List.length_append]
        omega
    · intro kvs hk
      cases kvs with
      | nil => simp [ksize]
      | cons key p t =>
        have hps : psize p ≤ n := by simp [ksize] at hk; omega
        have hkt : ksize t ≤ n := by simp [ksize] at hk; omega
        have h1 := ihp p hps
        have h2 := ihk t hkt
        simp [ksize, encPairs, encStr, List.length_append]
        omega

/-- Modelled from the spec: the `pickle_it` stage serializes a primitive structure to
a byte blob (section 4.3); the blob is modelled as a list of tokens. -/
def pickle_it (p : Prim) : List Nat := encPrim p

/-- Modelled from the spec: the `unpickle_it` stage parses a byte blob back into the
primitive structure, failing on malformed blobs (section 4.3). -/
def unpickle_it (b : List Nat) : Option Prim :=
  match decPrim b.length b with
  | some (p, []) => some p
  | _ => none

theorem unpickle_pickle (p : Prim) : unpickle_it (pickle_it p) = some p := by
  unfold unpickle_it pickle_it
  have hlen : psize p ≤ (encPrim p).length := by
    have h1 := (enc_length_ge (psize p)).1 p (Nat.le_refl _)
    omega
  have hdec := (dec_enc (encPrim p).length).1 p [] hlen
  rw [List.append_nil] at hdec
  rw [hdec]

/-- Modelled from the spec: representable domain objects of the app framework, each
with a tagged rich-dict primitive form (spec section 3 "Rich dict" and section 4.3);
a molecular type referenced by name, or a sequence collection of named sequences. -/
inductive DomainObj where
  | moltype (name : String)
  | seqcoll (seqs : List (String × String))
deriving DecidableEq

/-- Field list of a name-to-sequence mapping, used by the seqcoll rich dict. -/
def kvsOfList : List (String × String) → PrimKVs
  | [] => .nil
  | (k, v) :: t => .cons k (.pstr v) (kvsOfList t)

/-- Inverse of `kvsOfList`, recovering the name-to-sequence pairs. -/
def listOfKvs : PrimKVs → Option (List (String × String))
  | .nil => some []
  | .cons k (.pstr v) t => (listOfKvs t).map fun l => (k, v) :: l
  | _ => none

theorem listOfKvs_kvsOfList (l : List (String × String)) :
    listOfKvs (kvsOfList l) = some l := by
  induction l with
  | nil => rfl
  | cons kv t ih =>
    obtain ⟨k, v⟩ := kv
    simp [kvsOfList, listOfKvs, ih]

/-- Modelled from the spec: the `to_primitive` stage turns a domain object into its
self-describing rich-dict primitive, with a "type" provenance field (sections 4.3
and 6). -/
def to_primitive : DomainObj → Prim
  | .moltype name =>
    .pdict (.cons "type" (.pstr "moltype") (.cons "name" (.pstr name) .nil))
  | .seqcoll seqs =>
    .pdict (.cons "type" (.pstr "seqcoll")
      (.cons "seqs" (.pdict (kvsOfList seqs)) .nil))

/-- Modelled from the spec: the `from_primitive` stage applies the registry-driven
deserializer, dispatching on the "type" field of the rich dict (section 4.3). -/
def from_primitive : Prim → Option DomainObj
  | .pdict (.cons "type" (.pstr "moltype") (.cons "name" (.pstr name) .nil)) =>
    some (.moltype name)
  | .pdict (.cons "type" (.pstr "seqcoll") (.cons "seqs" (.pdict kvs) .nil)) =>
    (listOfKvs kvs).map .seqcoll
  | _ => none

theorem from_to_primitive (o : DomainObj) : from_primitive (to_primitive o) = some o := by
  cases o with
  | moltype name => rfl
  | seqcoll seqs => simp [to_primitive, from_primitive, listOfKvs_kvsOfList]

/-- Modelled from the spec: the `compress` app wraps a pluggable compression function
over byte blobs (section 4.3). -/
def compress_app (compressor : List Nat → List Nat) (b : List Nat) : List Nat :=
  compressor b

/-- Modelled from the spec: the `decompress` app wraps a pluggable decompression
function over byte blobs (section 4.3). -/
def decompress_app (decompressor : List Nat → List Nat) (b : List Nat) : List Nat :=
  decompressor b

/-- Modelled from the spec: a supported (compress, decompress) pair must satisfy
`decompress(compress(x)) = x` for all byte strings x (section 4.3). -/
def inverse_pair (compressor decompressor : List Nat → List Nat) : Prop :=
  ∀ x : List Nat, decompressor (compressor x) = x

/-- Modelled from the spec: the chained forward stages
`to_primitive() + pickle_it() + compress()` (section 4.3). -/
def serialised_chain (compressor : List Nat → List Nat) (o : DomainObj) : List Nat :=
  compress_app compressor (pickle_it (to_primitive o))

/-- Modelled from the spec: the chained inverse stages
`decompress() + unpickle_it() + from_primitive()` (section 4.3). -/
def deserialised_chain (decompressor : List Nat → List Nat) (b : List Nat) :
    Option DomainObj :=
  (unpickle_it (decompress_app decompressor b)).bind from_primitive

/-- C5: for every byte string and every supported (compress, decompress) pair — one
satisfying the specified inverse contract — decompressing a compressed blob returns
it unchanged, and the full forward chain to_primitive + pickle_it + compress followed
by decompress + unpickle_it + from_primitive reconstructs any representable domain
object exactly. -/
theorem serialization_roundtrip (compressor decompressor : List Nat → List Nat)
    (hpair : inverse_pair compressor decompressor) (x : List Nat) (o : DomainObj) :
    decompress_app decompressor (compress_app compressor x) = x ∧
    deserialised_chain decompressor (serialised_chain compressor o) = some o := by
  constructor
  · exact hpair x
  · unfold deserialised_chain serialised_chain
    rw [show decompress_app decompressor (compress_app compressor
        (pickle_it (to_primitive o))) = pickle_it (to_primitive o) from
      hpair (pickle_it (to_primitive o))]
    rw [unpickle_pickle, Option.some_bind, from_to_primitive]

/-- Witness for C5 with a concrete inverse pair (length-prefix framing) and a
concrete sequence-collection object. -/
theorem serialization_roundtrip_witness :
    decompress_app List.tail (compress_app (fun b => b.length :: b) [7, 8, 9])
        = [7, 8, 9] ∧
    deserialised_chain List.tail
        (serialised_chain (fun b => b.length :: b) (.seqcoll [("seq1", "ACGG")]))
      = some (.seqcoll [("seq1", "ACGG")]) :=
  serialization_roundtrip (fun b => b.length :: b) List.tail (fun _ => rfl)
    [7, 8, 9] (.seqcoll [("seq1", "ACGG")])

/-- Modelled from the spec: the FailureMarker (NotCompleted) value, carrying failure
category, origin step, message, and the source identifier when known (section 3). -/
structure NotCompleted where
  errtype : String
  origin : String
  message : String
  source : Option String
deriving DecidableEq

/-- Modelled from the spec: the outcome of one app call — a domain value, a returned
FailureMarker, or an exception escaping (the latter reserved for programmer errors,
section 7). -/
inductive AppOutcome (α : Type) where
  | ok (val : α)
  | failed (nc : NotCompleted)
  | raised (msg : String)
deriving DecidableEq

/-- Modelled from the spec: the input handed to a loader app — a loadable reference
(path-like identifier or data-store member) or a ready-made in-memory domain object
(section 4.4). -/
inductive LoaderInput where
  | identifier (path : String)
  | member (unique_id : String)
  | inMemory (obj : DomainObj)

/-- Modelled from the spec: a loader app (section 4.4), parameterized by its origin
name and content parser.  Given an in-memory domain object instead of a loadable
reference it returns a FailureMarker and never raises; unparsable content is likewise
a FailureMarker (section 7, DomainFailure). -/
def load_app (origin : String) (parse : String → Option DomainObj) :
    LoaderInput → AppOutcome DomainObj
  | .inMemory _ =>
    .failed ⟨"ERROR", origin, "received an in-memory object, not a loadable reference",
      none⟩
  | .identifier path =>
    match parse path with
    | some o => .ok o
    | none => .failed ⟨"ERROR", origin, "unparsable content", some path⟩
  | .member uid =>
    match parse uid with
    | some o => .ok o
    | none => .failed ⟨"ERROR", origin, "unparsable content", some uid⟩

/-- Modelled from the spec: a payload handed to pickle_it is either serializable
(primitive-representable) or references a non-serializable local callable
(section 4.3). -/
inductive Payload where
  | serializable (p : Prim)
  | localCallable (name : String)

/-- Modelled from the spec: the pickle_it app returns the serialized blob, or a
FailureMarker — not an exception — when the payload is not serializable
(section 4.3). -/
def pickle_it_app : Payload → AppOutcome (List Nat)
  | .serializable p => .ok (pickle_it p)
  | .localCallable n =>
    .failed ⟨"ERROR", "pickle_it", "cannot pickle local object", some n⟩

/-- C6: recoverable domain failures never escape as exceptions — a loader applied to
an in-memory domain object returns a FailureMarker and raises nothing, and pickle_it
applied to a non-serializable payload returns a FailureMarker and raises nothing. -/
theorem recoverable_failures_return_marker (origin : String)
    (parse : String → Option DomainObj) (obj : DomainObj) (fname : String) :
    (∃ nc, load_app origin parse (.inMemory obj) = .failed nc) ∧
    (∀ msg, load_app origin parse (.inMemory obj) ≠ .raised msg) ∧
    (∃ nc, pickle_it_app (.localCallable fname) = .failed nc) ∧
    (∀ msg, pickle_it_app (.localCallable fname) ≠ .raised msg) := by
  refine ⟨⟨_, rfl⟩, ?_, ⟨_, rfl⟩, ?_⟩
  · intro msg h
    simp [load_app] at h
  · intro msg h
    simp [pickle_it_app] at h

/-- Modelled from the spec: write_tabular's long-format flattening of a labelled 2-D
matrix — columns dim-1, dim-2, value, one row per cell, row-major over the original
axis order (sections 4.5 and 6). -/
def flatten_2d (rows : List (List Int)) (row_labels : List Nat)
    (col_labels : List String) : List (Nat × String × Int) :=
  ((row_labels.zip rows).map fun ir =>
    (col_labels.zip ir.2).map fun cv => (ir.1, cv.1, cv.2)).flatten

/-- Modelled from the spec: the tabular writer's output file — a header line
dim-1, dim-2, value followed by one line of rendered fields per cell (section 6);
a file is modelled as its lines of tab-separated fields. -/
def write_tabular_file (rows : List (List Int)) (row_labels : List Nat)
    (col_labels : List String) : List (List String) :=
  ["dim-1", "dim-2", "value"] ::
    (flatten_2d rows row_labels col_labels).map fun r =>
      [toString r.1, r.2.1, toString r.2.2]

/-- Digit-by-digit parser for an unsigned decimal numeral. -/
def parseNatGo : List Char → Nat → Option Nat
  | [], acc => some acc
  | c :: t, acc =>
    if c.isDigit then parseNatGo t (acc * 10 + (c.toNat - 48)) else none

/-- Parser for a nonempty unsigned decimal numeral. -/
def parseNat (cs : List Char) : Option Nat :=
  match cs with
  | [] => none
  | _ => parseNatGo cs 0

/-- Parser for a signed decimal numeral. -/
def parseInt (cs : List Char) : Option Int :=
  match cs with
  | '-' :: t => (parseNat t).map fun n => -(n : Int)
  | _ => (parseNat cs).map fun n => (n : Int)

/-- Modelled from the spec: load_tabular reading the written file back into typed
long-format rows, checking the header (sections 4.4 and 6). -/
def load_tabular_file (file : List (List String)) :
    Option (List (Nat × String × Int)) :=
  match file with
  | [] => none
  | header :: body =>
    if header = ["dim-1", "dim-2", "value"] then
      body.mapM fun fields =>
        match fields with
        | [i, c, v] =>
          (parseNat i.toList).bind fun iv =>
            (parseInt v.toList).map fun vv => (iv, c, vv)
        | _ => none
    else none

/-- C7: writing the 3x2 matrix [[2,4],[3,5],[4,8]] with row labels 0,1,2 and column
labels A,B through the tabular writer and loading it back yields exactly the six
long-format rows (0,A,2), (0,B,4), (1,A,3), (1,B,5), (2,A,4), (2,B,8), in row-major
order. -/
theorem write_tabular_3x2_roundtrip :
    load_tabular_file (write_tabular_file [[2, 4], [3, 5], [4, 8]] [0, 1, 2] ["A", "B"])
      = some [(0, "A", 2), (0, "B", 4), (1, "A", 3), (1, "B", 5), (2, "A", 4),
        (2, "B", 8)] ∧
    flatten_2d [[2, 4], [3, 5], [4, 8]] [0, 1, 2] ["A", "B"]
      = [(0, "A", 2), (0, "B", 4), (1, "A", 3), (1, "B", 5), (2, "A", 4),
        (2, "B", 8)] := by
  constructor
  · decide
  · decide

/-- Modelled from the spec: the Database-backed data store — a records table keyed by
identifier, a separate not_completed table of FailureMarkers, and a record_type tag
set on the first successful write (sections 4.2 and 6). -/
structure DataStoreSqlite where
  records : List (String × List Nat)
  not_completed : List (String × NotCompleted)
  record_type : Option String

/-- Modelled from the spec: a freshly opened write-mode Database store is empty. -/
def empty_db_store : DataStoreSqlite := ⟨[], [], none⟩

/-- The record-type provenance tag of a domain object. -/
def record_tag : DomainObj → String
  | .moltype _ => "moltype"
  | .seqcoll _ => "seqcoll"

/-- Modelled from the spec: write_db inserts a serialized record keyed by identifier
in one transaction; given a FailureMarker it appends it to the not_completed table
instead and still returns success-shaped bookkeeping, not an exception
(section 4.5). -/
def write_db (store : DataStoreSqlite) (identifier : String)
    (data : Sum NotCompleted DomainObj) : DataStoreSqlite × AppOutcome String :=
  match data with
  | .inl nc =>
    ({ store with not_completed := store.not_completed ++ [(identifier, nc)] },
      .ok identifier)
  | .inr obj =>
    ({ store with
        records := store.records ++ [(identifier, pickle_it (to_primitive obj))],
        record_type := match store.record_type with
          | none => some (record_tag obj)
          | some t => some t },
      .ok identifier)

/-- C8: giving the write-to-db app a FailureMarker on an empty Database store appends
it to the not-completed table, leaves the records table empty, and returns
success-shaped bookkeeping, raising nothing. -/
theorem write_db_marker_to_not_completed (nc : NotCompleted) (identifier : String) :
    ((write_db empty_db_store identifier (.inl nc)).1).not_completed.length = 1 ∧
    ((write_db empty_db_store identifier (.inl nc)).1).records.length = 0 ∧
    (write_db empty_db_store identifier (.inl nc)).2 = .ok identifier := by
  exact ⟨rfl, rfl, rfl⟩

end Cogent3
